import Mathlib

/-!
Verification of the structure-splitting and simulation-driver glue of the
Chem563 repository (notebook `03_Ensembles/HW-05.ipynb`).

The central artifact is the Python function `split_pdb`, which reads a PDB
file, collects its `ATOM` records grouped by the alternate-location marker
character at column 16, and, for every non-blank marker, writes an output
file containing that marker's records merged with the blank-marker records,
restored to original order, with the marker column blanked.

We embed the function shallowly: a line is a list of characters, the file is
a list of lines, the `groups` dict is an insertion-ordered association list,
and Python exceptions (`IndexError` on a short `ATOM` line, `KeyError` on a
missing blank-marker group) are modelled with `Except`.
-/

namespace Chem563

/-- A text line, as its list of characters (a Python string). -/
abbrev Line := List Char

/-- A group value: the (counter, blanked line) pairs collected for one marker. -/
abbrev Group := List (Nat × Line)

/-- The `groups` dictionary: an insertion-ordered association list, matching a
Python dict's iteration order. -/
abbrev Groups := List (Char × Group)

/-- The uncaught Python exceptions the splitter can raise. -/
inductive SplitError where
  | fileNotFound
  | indexError
  | keyError
deriving DecidableEq, Repr

instance {ε α : Type} [DecidableEq ε] [DecidableEq α] :
    DecidableEq (Except ε α) := fun x y =>
  match x, y with
  | .error e, .error e' =>
      match decEq e e' with
      | isTrue h => isTrue (by rw [h])
      | isFalse h => isFalse (fun hc => h (by injection hc))
  | .ok a, .ok b =>
      match decEq a b with
      | isTrue h => isTrue (by rw [h])
      | isFalse h => isFalse (fun hc => h (by injection hc))
  | .error _, .ok _ => isFalse (fun hc => Except.noConfusion hc)
  | .ok _, .error _ => isFalse (fun hc => Except.noConfusion hc)

/-- Column index of the alternate-location marker (`pos = 16` in the source). -/
def pos : Nat := 16

/-- Python `line.startswith("ATOM")`. -/
def startsWithATOM (line : Line) : Bool :=
  ['A', 'T', 'O', 'M'].isPrefixOf line

/-- Python `line[pos]` as a partial lookup: `some` the marker character when
the line has more than `pos` characters, `none` (an `IndexError`) otherwise. -/
def marker16 (line : Line) : Option Char := line.get? pos

/-- Python `line[:pos] + " " + line[pos+1:]`: the line with its marker column
blanked out. -/
def blank16 (line : Line) : Line :=
  line.take pos ++ [' '] ++ line.drop (pos + 1)

/-- Python `groups.setdefault(state, []).append(v)` on an insertion-ordered
dict: append `v` to the existing entry for `key`, or add a new entry at the
end. -/
def setdefaultAppend : Groups → Char → Nat × Line → Groups
  | [], key, v => [(key, [v])]
  | (k, g) :: rest, key, v =>
      if k = key then (k, g ++ [v]) :: rest
      else (k, g) :: setdefaultAppend rest key v

/-- Python `groups[key]` lookup (`none` models a `KeyError`). -/
def lookupGroup : Groups → Char → Option Group
  | [], _ => none
  | (k, g) :: rest, key => if k = key then some g else lookupGroup rest key

/-- State of the reading loop of `split_pdb`: the dict `groups` and the
running `counter`. -/
structure ScanSt where
  groups : Groups
  counter : Nat
deriving Repr

/-- One iteration of the reading loop of `split_pdb`: skip a line unless it
starts with `ATOM`; otherwise read the marker (raising `IndexError` when the
line is too short), blank it, and record the line under its marker. -/
def scanLine (st : ScanSt) (line : Line) : Except SplitError ScanSt :=
  if startsWithATOM line then
    match marker16 line with
    | none => .error .indexError
    | some state =>
        .ok ⟨setdefaultAppend st.groups state (st.counter, blank16 line),
             st.counter + 1⟩
  else
    .ok st

/-- The reading loop of `split_pdb` over all lines of the file. -/
def scanLines (st : ScanSt) : List Line → Except SplitError ScanSt
  | [] => .ok st
  | line :: rest =>
      match scanLine st line with
      | .error e => .error e
      | .ok st' => scanLines st' rest

/-- The ordering used by Python's `lines_both.sort()` on `(counter, line)`
tuples: lexicographic on the pair, with code-point lexicographic order on the
line (Mathlib's `Lex`-based linear order on `List Char`). -/
def tupLe (a b : Nat × Line) : Prop :=
  a.1 < b.1 ∨ (a.1 = b.1 ∧ a.2 ≤ b.2)

instance : DecidableRel tupLe := fun a b => by
  unfold tupLe; infer_instance

/-- The output filename `"{\x7d_{\x7d.pdb".format(fn_pdb[:-4], key.lower())`:
drop the last four characters of the input name, then append an underscore,
the lowercased marker, and `.pdb`. -/
def outName (fn_pdb : Line) (key : Char) : Line :=
  fn_pdb.take (fn_pdb.length - 4) ++ ['_', key.toLower, '.', 'p', 'd', 'b']

/-- The writing loop of `split_pdb`: for each dict entry in order, skip the
blank key; otherwise merge the entry's group with the blank-marker group
(raising `KeyError` when the latter is absent), sort by `(counter, line)`,
and emit the output file as its (path, written lines) pair. -/
def writeGroups (fn_pdb : Line) (groups : Groups) :
    Groups → Except SplitError (List (Line × List Line))
  | [] => .ok []
  | (key, lines_group) :: rest =>
      if key = ' ' then writeGroups fn_pdb groups rest
      else
        match lookupGroup groups ' ' with
        | none => .error .keyError
        | some dflt =>
            match writeGroups fn_pdb groups rest with
            | .error e => .error e
            | .ok ws =>
                .ok ((outName fn_pdb key,
                      (List.insertionSort tupLe (lines_group ++ dflt)).map
                        Prod.snd) :: ws)

/-- The whole of `split_pdb` on a file's contents: the reading loop followed
by the writing loop; the result is the ordered list of (path, lines) writes,
or the uncaught exception. -/
def split_pdb (fn_pdb : Line) (contents : List Line) :
    Except SplitError (List (Line × List Line)) :=
  match scanLines ⟨[], 0⟩ contents with
  | .error e => .error e
  | .ok st => writeGroups fn_pdb st.groups st.groups

/-! A small file-system model, to state frame and idempotence properties:
an association list from path to contents, written in order. -/

/-- The file system: an association list from path to file contents. -/
abbrev FS := List (Line × List Line)

/-- Read a file. -/
def fsRead : FS → Line → Option (List Line)
  | [], _ => none
  | (q, c) :: rest, p => if q = p then some c else fsRead rest p

/-- Write (create or truncate-and-replace) a file. -/
def fsWrite : FS → Line → List Line → FS
  | [], p, c => [(p, c)]
  | (q, d) :: rest, p, c =>
      if q = p then (q, c) :: rest else (q, d) :: fsWrite rest p c

/-- Apply a sequence of writes in order. -/
def applyWrites (fs : FS) : List (Line × List Line) → FS
  | [] => fs
  | w :: ws => applyWrites (fsWrite fs w.1 w.2) ws

/-- Run `split_pdb` against a file system: open the input (raising when it is
missing) and compute the writes. -/
def runSplit (fs : FS) (fn_pdb : Line) :
    Except SplitError (List (Line × List Line)) :=
  match fsRead fs fn_pdb with
  | none => .error .fileNotFound
  | some contents => split_pdb fn_pdb contents

/-! Reference (specification-side) descriptions of the splitter's input,
used to state the claims: the `ATOM` lines of the file, their markers, and
the expected merged contents of each output. -/

/-- The lines of the file flagged as atomic coordinate records. -/
def atomLines (contents : List Line) : List Line :=
  contents.filter startsWithATOM

/-- The marker characters of the `ATOM` lines, in file order (lines too short
to carry a marker contribute nothing). -/
def markersOf (contents : List Line) : List Char :=
  (atomLines contents).filterMap marker16

/-- First-occurrence deduplication, keeping the relative order of first
occurrences; `keysSeen` accumulates the characters already kept. -/
def newKeys (keysSeen : List Char) : List Char → List Char
  | [] => []
  | c :: cs =>
      if c ∈ keysSeen then newKeys keysSeen cs
      else c :: newKeys (keysSeen ++ [c]) cs

/-- The distinct elements of a list, in first-occurrence order (a Python
dict's key order). -/
def dedupFirst (l : List Char) : List Char := newKeys [] l

/-- The expected contents of the output file for marker `k`: the `ATOM` lines
whose marker is `k` or blank, in original file order, with the marker column
blanked. -/
def mergedFor (contents : List Line) (k : Char) : List Line :=
  ((atomLines contents).filter
      (fun l => marker16 l = some k ∨ marker16 l = some ' ')).map blank16

/-- The distinct non-blank markers of the file, in first-occurrence order. -/
def nondefaultMarkers (contents : List Line) : List Char :=
  (dedupFirst (markersOf contents)).filter (fun c => c ≠ ' ')

/-- The number of distinct paths a run's writes touch (writes to the same
path produce one file). -/
def numOutputFiles (r : Except SplitError (List (Line × List Line))) : Nat :=
  match r with
  | .error _ => 0
  | .ok ws => (ws.map Prod.fst).dedup.length

/-! Helper definitions for the proofs: a record view of the reading loop and
direct recursions describing the groups it builds. -/

/-- The record the reading loop extracts from one `ATOM` line: its marker and
its blanked text (`getD` is only consulted on lines long enough to carry a
marker). -/
def recOf (line : Line) : Char × Line :=
  (line.getD pos ' ', blank16 line)

/-- The records of all `ATOM` lines, in file order. -/
def records (contents : List Line) : List (Char × Line) :=
  (atomLines contents).map recOf

/-- The input is well formed enough for the reading loop to finish: every
`ATOM` line is long enough to carry a marker. -/
def goodInput (contents : List Line) : Prop :=
  ∀ l ∈ contents, startsWithATOM l = true → pos < l.length

/-- Replay of the reading loop on a pre-extracted record list. -/
def buildSt (st : ScanSt) : List (Char × Line) → ScanSt
  | [] => st
  | (c, l) :: rs =>
      buildSt ⟨setdefaultAppend st.groups c (st.counter, l), st.counter + 1⟩ rs

/-- The keys of the groups dict, in insertion order. -/
def keysOf (groups : Groups) : List Char :=
  groups.map Prod.fst

/-- The group the dict associates to marker `k` after scanning records `rs`
starting from counter `n`: the `k`-records paired with their counters. -/
def groupSpecFrom (n : Nat) (k : Char) : List (Char × Line) → Group
  | [] => []
  | (c, l) :: rs =>
      if c = k then (n, l) :: groupSpecFrom (n + 1) k rs
      else groupSpecFrom (n + 1) k rs

/-- The merged group for marker `k`: the records whose marker is `k` or
blank, paired with their counters, in counter order. -/
def groupSpecFrom2 (n : Nat) (k : Char) : List (Char × Line) → Group
  | [] => []
  | (c, l) :: rs =>
      if c = k ∨ c = ' ' then (n, l) :: groupSpecFrom2 (n + 1) k rs
      else groupSpecFrom2 (n + 1) k rs

/-- The merged record text for marker `k` on a record list. -/
def mergedRecords (k : Char) (rs : List (Char × Line)) : List Line :=
  (rs.filter (fun r => r.1 = k ∨ r.1 = ' ')).map Prod.snd

/-- The content of the last write to path `p` in a write sequence, if any. -/
def lastWrite : List (Line × List Line) → Line → Option (List Line)
  | [], _ => none
  | w :: ws, p =>
      match lastWrite ws p with
      | some c => some c
      | none => if w.1 = p then some w.2 else none

/-- A minimal well-formed `ATOM` line carrying marker `m` at column 16,
used for concrete test inputs. -/
def mkAtom (m : Char) (rest : Line) : Line :=
  'A' :: 'T' :: 'O' :: 'M' :: (List.replicate 12 'x' ++ m :: rest)

/-! Shallow embedding of the simulation-driver glue (notebook cells 5 and 6):
the sequence of calls the notebook issues to the external engine after the
system is built. Reporter semantics (appending a row or frame every
`interval` steps) belong to the external engine; the driver only configures
them. -/

/-- Where a state-data reporter sends its rows. -/
inductive RepTarget where
  | stdout
  | file (path : Line)
deriving DecidableEq, Repr

/-- The scalar observables a state-data reporter can be asked to record. -/
inductive Observable where
  | step
  | time
  | potentialEnergy
  | totalEnergy
  | temperature
  | elapsedTime
deriving DecidableEq, Repr

/-- The engine calls the driver issues after system construction. -/
inductive EngineCall where
  | minimizeEnergy (maxIterations : Nat)
  | writePDBFile (path : Line)
  | addDCDReporter (path : Line) (interval : Nat)
  | addStateDataReporter (target : RepTarget) (interval : Nat)
      (fields : List Observable)
  | step (steps : Nat)
deriving DecidableEq, Repr

/-- The notebook's driver sequence: minimize (100 iterations), write the
minimized structure, attach a DCD trajectory reporter every 10 steps, a
stdout progress reporter every 100 steps, a `scalars.csv` reporter every 10
steps with step, time, potential energy, total energy and temperature, then
advance 3000 steps. -/
def driverCalls : List EngineCall :=
  [ .minimizeEnergy 100,
    .writePDBFile "init.pdb".toList,
    .addDCDReporter "traj.dcd".toList 10,
    .addStateDataReporter .stdout 100 [.step, .temperature, .elapsedTime],
    .addStateDataReporter (.file "scalars.csv".toList) 10
      [.step, .time, .potentialEnergy, .totalEnergy, .temperature],
    .step 3000 ]

/-- Recognize an integration-advance call. -/
def isStepCall : EngineCall → Bool
  | .step _ => true
  | _ => false

/-- Recognize an energy-minimization call. -/
def isMinimizeCall : EngineCall → Bool
  | .minimizeEnergy _ => true
  | _ => false

/-- Recognize a file-targeted state-data reporter configuration. -/
def isFileStateReporter : EngineCall → Bool
  | .addStateDataReporter (.file _) _ _ => true
  | _ => false

/-- Recognize a trajectory (DCD) reporter configuration. -/
def isDCDReporter : EngineCall → Bool
  | .addDCDReporter _ _ => true
  | _ => false

instance : IsTotal (Nat × Line) tupLe := by
  refine ⟨fun a b => ?_⟩
  rcases Nat.lt_trichotomy a.1 b.1 with h | h | h
  · exact Or.inl (Or.inl h)
  · rcases le_total a.2 b.2 with hle | hle
    · exact Or.inl (Or.inr ⟨h, hle⟩)
    · exact Or.inr (Or.inr ⟨h.symm, hle⟩)
  · exact Or.inr (Or.inl h)

instance : IsTrans (Nat × Line) tupLe := by
  refine ⟨fun a b c hab hbc => ?_⟩
  rcases hab with h1 | ⟨h1, h1'⟩
  · rcases hbc with h2 | ⟨h2, _⟩
    · exact Or.inl (h1.trans h2)
    · exact Or.inl (h2 ▸ h1)
  · rcases hbc with h2 | ⟨h2, h2'⟩
    · exact Or.inl (h1 ▸ h2)
    · exact Or.inr ⟨h1.trans h2, le_trans h1' h2'⟩

instance : IsAntisymm (Nat × Line) tupLe := by
  refine ⟨fun a b hab hba => ?_⟩
  rcases hab with h1 | ⟨h1, h1'⟩ <;> rcases hba with h2 | ⟨h2, h2'⟩
  · omega
  · omega
  · omega
  · exact Prod.ext h1 (le_antisymm h1' h2')

/-! ### Characterization of the reading loop -/

theorem marker16_eq_some_getD {l : Line} (h : pos < l.length) :
    marker16 l = some (l.getD pos ' ') := by
  simp [marker16, List.get?_eq_getElem?, List.getElem?_eq_getElem h,
    List.getD_eq_getElem?_getD]

theorem marker16_eq_none {l : Line} (h : l.length ≤ pos) :
    marker16 l = none := by
  simp [marker16, List.get?_eq_getElem?, List.getElem?_eq_none_iff, h]

theorem scanLine_not_atom {st : ScanSt} {line : Line}
    (h : ¬ startsWithATOM line = true) : scanLine st line = .ok st := by
  simp [scanLine, h]

theorem scanLine_atom {st : ScanSt} {line : Line}
    (ha : startsWithATOM line = true) (h : pos < line.length) :
    scanLine st line =
      .ok ⟨setdefaultAppend st.groups (line.getD pos ' ')
            (st.counter, blank16 line), st.counter + 1⟩ := by
  simp [scanLine, ha, marker16_eq_some_getD h]

theorem records_cons_atom {l : Line} {contents : List Line}
    (ha : startsWithATOM l = true) :
    records (l :: contents) = recOf l :: records contents := by
  simp [records, atomLines, ha]

theorem records_cons_skip {l : Line} {contents : List Line}
    (ha : ¬ startsWithATOM l = true) :
    records (l :: contents) = records contents := by
  simp [records, atomLines, ha]

theorem scanLines_eq_buildSt {contents : List Line} (h : goodInput contents)
    (st : ScanSt) :
    scanLines st contents = .ok (buildSt st (records contents)) := by
  induction contents generalizing st with
  | nil => simp [scanLines, records, atomLines, buildSt]
  | cons l rest ih =>
      have hrest : goodInput rest := fun x hx hf => h x (List.mem_cons_of_mem _ hx) hf
      by_cases ha : startsWithATOM l = true
      · have hl : pos < l.length := h l (List.mem_cons_self _ _) ha
        rw [scanLines, scanLine_atom ha hl, records_cons_atom ha]
        exact ih hrest ⟨setdefaultAppend st.groups (l.getD pos ' ')
          (st.counter, blank16 l), st.counter + 1⟩
      · rw [scanLines, scanLine_not_atom ha, records_cons_skip ha]
        exact ih hrest st

theorem goodInput_of_scan_ok {contents : List Line} {st st' : ScanSt}
    (h : scanLines st contents = .ok st') : goodInput contents := by
  induction contents generalizing st with
  | nil => intro l hl; cases hl
  | cons l rest ih =>
      rw [scanLines] at h
      cases hsc : scanLine st l with
      | error e => rw [hsc] at h; cases h
      | ok st1 =>
          rw [hsc] at h
          intro x hx hf
          rcases List.mem_cons.mp hx with rfl | hx'
          · by_contra hlen
            have hle : x.length ≤ pos := Nat.le_of_not_lt hlen
            rw [scanLine, if_pos hf, marker16_eq_none hle] at hsc
            cases hsc
          · exact ih h x hx' hf

/-! ### Characterization of the groups dict -/

theorem lookup_setdefaultAppend (c : Char) (v : Nat × Line) (k : Char) :
    ∀ g : Groups,
      lookupGroup (setdefaultAppend g c v) k =
        if k = c then some ((lookupGroup g c).getD [] ++ [v])
        else lookupGroup g k := by
  intro g
  induction g with
  | nil =>
      by_cases hkc : k = c
      · subst hkc; simp [setdefaultAppend, lookupGroup]
      · simp [setdefaultAppend, lookupGroup, hkc, Ne.symm hkc]
  | cons hd tl ih =>
      rcases hd with ⟨k', g'⟩
      by_cases h1 : k' = c
      · subst h1
        by_cases hk : k = k'
        · subst hk; simp [setdefaultAppend, lookupGroup]
        · simp [setdefaultAppend, lookupGroup, hk, Ne.symm hk]
      · by_cases hk : k' = k
        · subst hk
          have hkc : ¬ k' = c := h1
          simp [setdefaultAppend, lookupGroup, h1, hkc]
        · simp [setdefaultAppend, lookupGroup, h1, hk, ih]

theorem keysOf_setdefaultAppend (c : Char) (v : Nat × Line) :
    ∀ g : Groups,
      keysOf (setdefaultAppend g c v) =
        if c ∈ keysOf g then keysOf g else keysOf g ++ [c] := by
  intro g
  induction g with
  | nil => simp [setdefaultAppend, keysOf]
  | cons hd tl ih =>
      rcases hd with ⟨k', g'⟩
      simp only [keysOf] at ih ⊢
      by_cases h1 : k' = c
      · subst h1; simp [setdefaultAppend]
      · by_cases h2 : c ∈ List.map Prod.fst tl
        · rw [if_pos h2] at ih
          simp [setdefaultAppend, h1, ih, List.mem_cons, Ne.symm h1, h2]
        · rw [if_neg h2] at ih
          simp [setdefaultAppend, h1, ih, List.mem_cons, Ne.symm h1, h2]

theorem counter_buildSt (rs : List (Char × Line)) :
    ∀ st : ScanSt, (buildSt st rs).counter = st.counter + rs.length := by
  induction rs with
  | nil => intro st; simp [buildSt]
  | cons r rs ih =>
      rcases r with ⟨c, l⟩
      intro st
      rw [buildSt, ih]
      simp; omega

theorem keysOf_buildSt (rs : List (Char × Line)) :
    ∀ st : ScanSt,
      keysOf (buildSt st rs).groups =
        keysOf st.groups ++ newKeys (keysOf st.groups) (rs.map Prod.fst) := by
  induction rs with
  | nil => intro st; simp [buildSt, newKeys]
  | cons r rs ih =>
      rcases r with ⟨c, l⟩
      intro st
      rw [buildSt, ih]
      by_cases hc : c ∈ keysOf st.groups
      · simp [keysOf_setdefaultAppend, hc, newKeys]
      · simp [keysOf_setdefaultAppend, hc, newKeys]

theorem lookup_buildSt (rs : List (Char × Line)) :
    ∀ (st : ScanSt) (k : Char),
      lookupGroup (buildSt st rs).groups k =
        match lookupGroup st.groups k with
        | some g => some (g ++ groupSpecFrom st.counter k rs)
        | none =>
            if k ∈ rs.map Prod.fst then some (groupSpecFrom st.counter k rs)
            else none := by
  induction rs with
  | nil =>
      intro st k
      cases h : lookupGroup st.groups k <;> simp [buildSt, groupSpecFrom, h]
  | cons r rs ih =>
      rcases r with ⟨c, l⟩
      intro st k
      rw [buildSt, ih]
      rw [lookup_setdefaultAppend]
      by_cases hk : k = c
      · subst hk
        cases h : lookupGroup st.groups k <;>
          simp [h, groupSpecFrom, buildSt, List.append_assoc]
      · cases h : lookupGroup st.groups k with
        | some g => simp [h, hk, Ne.symm hk, groupSpecFrom, buildSt]
        | none =>
            simp [h, hk, Ne.symm hk, groupSpecFrom, buildSt]
            exact if_congr (by simp [List.mem_cons, hk]) rfl rfl

theorem mem_newKeys {x : Char} :
    ∀ (ms ks : List Char), x ∈ newKeys ks ms ↔ x ∈ ms ∧ x ∉ ks := by
  intro ms
  induction ms with
  | nil => intro ks; simp [newKeys]
  | cons c cs ih =>
      intro ks
      by_cases hc : c ∈ ks
      · rw [newKeys, if_pos hc, ih]
        constructor
        · rintro ⟨h1, h2⟩; exact ⟨List.mem_cons_of_mem _ h1, h2⟩
        · rintro ⟨h1, h2⟩
          rcases List.mem_cons.mp h1 with rfl | h1'
          · exact absurd hc h2
          · exact ⟨h1', h2⟩
      · rw [newKeys, if_neg hc]
        constructor
        · intro h
          rcases List.mem_cons.mp h with rfl | h'
          · exact ⟨List.mem_cons_self _ _, hc⟩
          · rcases (ih _).mp h' with ⟨h1, h2⟩
            refine ⟨List.mem_cons_of_mem _ h1, fun hx => h2 ?_⟩
            simp [hx]
        · rintro ⟨h1, h2⟩
          rcases List.mem_cons.mp h1 with rfl | h1'
          · exact List.mem_cons_self _ _
          · by_cases hxc : x = c
            · subst hxc; exact List.mem_cons_self _ _
            · refine List.mem_cons_of_mem _ ((ih _).mpr ⟨h1', ?_⟩)
              simp [h2, hxc]

theorem nodup_newKeys : ∀ (ms ks : List Char), (newKeys ks ms).Nodup := by
  intro ms
  induction ms with
  | nil => intro ks; simp [newKeys]
  | cons c cs ih =>
      intro ks
      by_cases hc : c ∈ ks
      · rw [newKeys, if_pos hc]; exact ih ks
      · rw [newKeys, if_neg hc]
        refine List.Nodup.cons ?_ (ih (ks ++ [c]))
        intro hmem
        rcases (mem_newKeys _ _).mp hmem with ⟨_, h2⟩
        exact h2 (by simp)

theorem groups_eq_map (g : Groups) (h : (keysOf g).Nodup) :
    g = (keysOf g).map (fun k => (k, (lookupGroup g k).getD [])) := by
  induction g with
  | nil => rfl
  | cons hd tl ih =>
      rcases hd with ⟨k', g'⟩
      rcases List.nodup_cons.mp h with ⟨hk', htl⟩
      have hmap :
          List.map (fun k => (k, (lookupGroup ((k', g') :: tl) k).getD []))
              (List.map Prod.fst tl)
            = List.map (fun k => (k, (lookupGroup tl k).getD []))
              (List.map Prod.fst tl) := by
        refine List.map_congr_left ?_
        intro k hk
        have hne : ¬ k' = k := fun he => hk' (he ▸ hk)
        simp [lookupGroup, hne]
      have htail := ih htl
      simp only [keysOf] at htail ⊢
      simp only [List.map_cons]
      rw [hmap, ← htail]
      simp [lookupGroup]

/-! ### The sort performed by the writing loop -/

theorem perm_groupSpec {k : Char} (hk : k ≠ ' ') (rs : List (Char × Line)) :
    ∀ n : Nat,
      (groupSpecFrom n k rs ++ groupSpecFrom n ' ' rs).Perm
        (groupSpecFrom2 n k rs) := by
  induction rs with
  | nil => intro n; simp [groupSpecFrom, groupSpecFrom2]
  | cons r rs ih =>
      rcases r with ⟨c, l⟩
      intro n
      by_cases hc : c = k
      · subst hc
        rw [groupSpecFrom, if_pos rfl, groupSpecFrom,
          if_neg hk, groupSpecFrom2, if_pos (Or.inl rfl)]
        exact (ih (n + 1)).cons (n, l)
      · by_cases hc' : c = ' '
        · subst hc'
          rw [groupSpecFrom, if_neg (fun h => hk h.symm), groupSpecFrom,
            if_pos rfl, groupSpecFrom2, if_pos (Or.inr rfl)]
          exact List.perm_middle.trans ((ih (n + 1)).cons (n, l))
        · rw [groupSpecFrom, if_neg hc, groupSpecFrom, if_neg hc',
            groupSpecFrom2, if_neg (by simp [hc, hc'])]
          exact ih (n + 1)

theorem lb_groupSpecFrom2 (k : Char) (rs : List (Char × Line)) :
    ∀ n : Nat, ∀ x ∈ groupSpecFrom2 n k rs, n ≤ x.1 := by
  induction rs with
  | nil => intro n x hx; simp [groupSpecFrom2] at hx
  | cons r rs ih =>
      rcases r with ⟨c, l⟩
      intro n x hx
      by_cases hc : c = k ∨ c = ' '
      · rw [groupSpecFrom2, if_pos hc] at hx
        rcases List.mem_cons.mp hx with rfl | hx'
        · exact le_refl n
        · exact Nat.le_of_succ_le (ih (n + 1) x hx')
      · rw [groupSpecFrom2, if_neg hc] at hx
        exact Nat.le_of_succ_le (ih (n + 1) x hx)

theorem sorted_groupSpecFrom2 (k : Char) (rs : List (Char × Line)) :
    ∀ n : Nat, List.Sorted tupLe (groupSpecFrom2 n k rs) := by
  induction rs with
  | nil => intro n; simp [groupSpecFrom2]
  | cons r rs ih =>
      rcases r with ⟨c, l⟩
      intro n
      by_cases hc : c = k ∨ c = ' '
      · rw [groupSpecFrom2, if_pos hc]
        refine List.sorted_cons.mpr ⟨?_, ih (n + 1)⟩
        intro b hb
        exact Or.inl (Nat.lt_of_succ_le (lb_groupSpecFrom2 k rs (n + 1) b hb))
      · rw [groupSpecFrom2, if_neg hc]
        exact ih (n + 1)

theorem insertionSort_merge {k : Char} (hk : k ≠ ' ')
    (rs : List (Char × Line)) :
    List.insertionSort tupLe (groupSpecFrom 0 k rs ++ groupSpecFrom 0 ' ' rs)
      = groupSpecFrom2 0 k rs := by
  refine List.eq_of_perm_of_sorted (r := tupLe) ?_ ?_ ?_
  · exact (List.perm_insertionSort tupLe _).trans (perm_groupSpec hk rs 0)
  · exact List.sorted_insertionSort tupLe _
  · exact sorted_groupSpecFrom2 k rs 0

theorem map_snd_groupSpecFrom2 (k : Char) (rs : List (Char × Line)) :
    ∀ n : Nat, (groupSpecFrom2 n k rs).map Prod.snd = mergedRecords k rs := by
  induction rs with
  | nil => intro n; simp [groupSpecFrom2, mergedRecords]
  | cons r rs ih =>
      rcases r with ⟨c, l⟩
      intro n
      by_cases hc : c = k ∨ c = ' '
      · rw [groupSpecFrom2, if_pos hc]
        simp only [List.map_cons, mergedRecords, List.filter_cons,
          decide_eq_true_eq, if_pos hc]
        exact congrArg (l :: ·) (by simpa [mergedRecords] using ih (n + 1))
      · rw [groupSpecFrom2, if_neg hc]
        simp only [mergedRecords, List.filter_cons, decide_eq_true_eq, if_neg hc]
        simpa [mergedRecords] using ih (n + 1)

/-! ### Characterization of the writing loop -/

theorem writeGroups_ok {fn_pdb : Line} {groups : Groups} {dflt : Group}
    (hd : lookupGroup groups ' ' = some dflt) :
    ∀ gs : Groups,
      writeGroups fn_pdb groups gs =
        .ok ((gs.filter (fun p => p.1 ≠ ' ')).map
          (fun p => (outName fn_pdb p.1,
            (List.insertionSort tupLe (p.2 ++ dflt)).map Prod.snd))) := by
  intro gs
  induction gs with
  | nil => simp [writeGroups]
  | cons p gs ih =>
      rcases p with ⟨key, lines_group⟩
      by_cases hkey : key = ' '
      · subst hkey
        rw [writeGroups, if_pos rfl, ih]
        simp [List.filter_cons]
      · rw [writeGroups, if_neg hkey, hd, ih]
        simp [List.filter_cons, hkey]

theorem writeGroups_keyError {fn_pdb : Line} {groups : Groups}
    (hd : lookupGroup groups ' ' = none) :
    ∀ gs : Groups, (∃ p ∈ gs, p.1 ≠ ' ') →
      writeGroups fn_pdb groups gs = .error .keyError := by
  intro gs
  induction gs with
  | nil => rintro ⟨p, hp, _⟩; cases hp
  | cons p gs ih =>
      rcases p with ⟨key, lines_group⟩
      rintro ⟨q, hq, hqne⟩
      by_cases hkey : key = ' '
      · subst hkey
        rw [writeGroups, if_pos rfl]
        refine ih ⟨q, ?_, hqne⟩
        rcases List.mem_cons.mp hq with rfl | hq'
        · exact absurd rfl hqne
        · exact hq'
      · rw [writeGroups, if_neg hkey, hd]

/-! ### Bridging the record view to the claims' vocabulary -/

theorem good_atomLines {contents : List Line} (h : goodInput contents) :
    ∀ l ∈ atomLines contents, pos < l.length := by
  intro l hl
  rcases List.mem_filter.mp hl with ⟨hmem, hflag⟩
  exact h l hmem hflag

theorem filterMap_marker16_eq {ls : List Line} (h : ∀ l ∈ ls, pos < l.length) :
    ls.filterMap marker16 = ls.map (fun l => l.getD pos ' ') := by
  induction ls with
  | nil => rfl
  | cons l ls ih =>
      rw [List.filterMap_cons, marker16_eq_some_getD (h l (List.mem_cons_self _ _)),
        List.map_cons, ih (fun x hx => h x (List.mem_cons_of_mem _ hx))]

theorem markersOf_eq {contents : List Line} (h : goodInput contents) :
    markersOf contents = (records contents).map Prod.fst := by
  rw [markersOf, filterMap_marker16_eq (good_atomLines h), records, List.map_map]
  rfl

theorem mergedRecords_eq_mergedFor {contents : List Line} (h : goodInput contents)
    (k : Char) :
    mergedRecords k (records contents) = mergedFor contents k := by
  rw [mergedRecords, records, List.filter_map, List.map_map, mergedFor]
  have hf : (atomLines contents).filter
        ((fun r : Char × Line => decide (r.1 = k ∨ r.1 = ' ')) ∘ recOf)
      = (atomLines contents).filter
        (fun l => decide (marker16 l = some k ∨ marker16 l = some ' ')) := by
    refine List.filter_congr ?_
    intro l hl
    have hm := marker16_eq_some_getD (good_atomLines h l hl)
    simp [Function.comp, recOf, hm]
  rw [hf]
  rfl

/-! ### The central description of a successful run of the splitter -/

theorem split_pdb_ok_characterization {fn_pdb : Line} {contents : List Line}
    {ws : List (Line × List Line)} (h : split_pdb fn_pdb contents = .ok ws) :
    ws = (nondefaultMarkers contents).map
      (fun k => (outName fn_pdb k, mergedFor contents k)) := by
  rw [split_pdb] at h
  cases hscan : scanLines ⟨[], 0⟩ contents with
  | error e => rw [hscan] at h; cases h
  | ok st =>
      rw [hscan] at h
      replace h : writeGroups fn_pdb st.groups st.groups = Except.ok ws := h
      have hgood : goodInput contents := goodInput_of_scan_ok hscan
      have hb := scanLines_eq_buildSt hgood ⟨[], 0⟩
      rw [hscan] at hb
      injection hb with hb
      subst hb
      have hkeys : keysOf (buildSt ⟨[], 0⟩ (records contents)).groups
          = newKeys [] ((records contents).map Prod.fst) := by
        simpa [keysOf] using keysOf_buildSt (records contents) ⟨[], 0⟩
      have hlook : ∀ k, lookupGroup (buildSt ⟨[], 0⟩ (records contents)).groups k
          = if k ∈ (records contents).map Prod.fst
            then some (groupSpecFrom 0 k (records contents)) else none := by
        intro k
        simpa [lookupGroup] using lookup_buildSt (records contents) ⟨[], 0⟩ k
      have hnodup : (keysOf (buildSt ⟨[], 0⟩ (records contents)).groups).Nodup := by
        rw [hkeys]; exact nodup_newKeys _ _
      have hG : (buildSt ⟨[], 0⟩ (records contents)).groups
          = (newKeys [] ((records contents).map Prod.fst)).map
              (fun k => (k, groupSpecFrom 0 k (records contents))) := by
        have h0 := groups_eq_map _ hnodup
        rw [hkeys] at h0
        rw [h0]
        refine List.map_congr_left ?_
        intro k hk
        have hkm : k ∈ (records contents).map Prod.fst :=
          ((mem_newKeys _ _).mp hk).1
        rw [hlook k, if_pos hkm]
        rfl
      have hnd : nondefaultMarkers contents
          = (newKeys [] ((records contents).map Prod.fst)).filter
              (fun c => c ≠ ' ') := by
        rw [nondefaultMarkers, dedupFirst, markersOf_eq hgood]
      by_cases hsp : ' ' ∈ (records contents).map Prod.fst
      · have hd : lookupGroup (buildSt ⟨[], 0⟩ (records contents)).groups ' '
            = some (groupSpecFrom 0 ' ' (records contents)) := by
          rw [hlook]; exact if_pos hsp
        rw [writeGroups_ok hd] at h
        injection h with h
        rw [← h, hG, List.filter_map, List.map_map, hnd]
        have hpred : ((fun p : Char × Group => decide (p.1 ≠ ' ')) ∘
              fun k => (k, groupSpecFrom 0 k (records contents)))
            = fun c => decide (c ≠ ' ') := rfl
        rw [hpred]
        refine List.map_congr_left ?_
        intro k hk
        have hkne : k ≠ ' ' := by
          have := (List.mem_filter.mp hk).2
          simpa using this
        have hmerge := insertionSort_merge hkne (records contents)
        simp only [Function.comp]
        rw [hmerge, map_snd_groupSpecFrom2, mergedRecords_eq_mergedFor hgood]
      · have hd : lookupGroup (buildSt ⟨[], 0⟩ (records contents)).groups ' '
            = none := by
          rw [hlook]; exact if_neg hsp
        cases hms0 : (records contents).map Prod.fst with
        | nil =>
            have hGnil : (buildSt ⟨[], 0⟩ (records contents)).groups = [] := by
              rw [hG, hms0]; rfl
            rw [hGnil] at h
            rw [writeGroups] at h
            injection h with h
            rw [← h, hnd, hms0]
            rfl
        | cons k0 ktl =>
            have hk0 : k0 ∈ (records contents).map Prod.fst := by
              rw [hms0]; exact List.mem_cons_self _ _
            have hk0ne : k0 ≠ ' ' := fun he => hsp (he ▸ hk0)
            have hGmem : (k0, groupSpecFrom 0 k0 (records contents))
                ∈ (buildSt ⟨[], 0⟩ (records contents)).groups := by
              rw [hG]
              exact List.mem_map_of_mem _
                ((mem_newKeys _ _).mpr ⟨hk0, List.not_mem_nil _⟩)
            rw [writeGroups_keyError hd _
              ⟨(k0, groupSpecFrom 0 k0 (records contents)), hGmem, hk0ne⟩] at h
            cases h

/-! ### Consequences used by several claims -/

theorem goodInput_of_split_ok {fn_pdb : Line} {contents : List Line}
    {ws : List (Line × List Line)} (h : split_pdb fn_pdb contents = .ok ws) :
    goodInput contents := by
  rw [split_pdb] at h
  cases hscan : scanLines ⟨[], 0⟩ contents with
  | error e => rw [hscan] at h; cases h
  | ok st => exact goodInput_of_scan_ok hscan

theorem length_outName (fn_pdb : Line) (key : Char) :
    (outName fn_pdb key).length = fn_pdb.length - 4 + 6 := by
  simp [outName, List.length_take]

theorem outName_ne_input (fn_pdb : Line) (key : Char) :
    outName fn_pdb key ≠ fn_pdb := by
  intro he
  have hl := congrArg List.length he
  rw [length_outName] at hl
  omega

theorem split_ok_paths {fn_pdb : Line} {contents : List Line}
    {ws : List (Line × List Line)} (h : split_pdb fn_pdb contents = .ok ws) :
    ws.map Prod.fst = (nondefaultMarkers contents).map (outName fn_pdb) := by
  rw [split_pdb_ok_characterization h, List.map_map]
  rfl

theorem split_ok_not_input_path {fn_pdb : Line} {contents : List Line}
    {ws : List (Line × List Line)} (h : split_pdb fn_pdb contents = .ok ws) :
    ∀ w ∈ ws, w.1 ≠ fn_pdb := by
  intro w hw
  have h1 : w.1 ∈ ws.map Prod.fst := List.mem_map_of_mem _ hw
  rw [split_ok_paths h] at h1
  rcases List.mem_map.mp h1 with ⟨k, _, hk⟩
  rw [← hk]
  exact outName_ne_input fn_pdb k

theorem marker16_blank16 {l : Line} (h : pos < l.length) :
    marker16 (blank16 l) = some ' ' := by
  have h1 : (l.take pos).length = pos := by
    rw [List.length_take]; omega
  have h2 : (l.take pos ++ [' ']).length = pos + 1 := by
    rw [List.length_append, h1]; rfl
  rw [blank16, marker16, List.get?_eq_getElem?]
  rw [List.getElem?_append]
  rw [if_pos (show pos < (l.take pos ++ [' ']).length by omega)]
  rw [List.getElem?_append]
  rw [if_neg (show ¬ pos < (l.take pos).length by omega)]
  rw [h1]
  simp

/-! ### File-system lemmas -/

theorem fsRead_fsWrite_eq (fs : FS) (p : Line) (c : List Line) :
    fsRead (fsWrite fs p c) p = some c := by
  induction fs with
  | nil => simp [fsWrite, fsRead]
  | cons e fs ih =>
      rcases e with ⟨q, d⟩
      by_cases hq : q = p
      · subst hq; simp [fsWrite, fsRead]
      · simp [fsWrite, fsRead, hq, ih]

theorem fsRead_fsWrite_ne {p q : Line} (h : q ≠ p) (fs : FS) (c : List Line) :
    fsRead (fsWrite fs q c) p = fsRead fs p := by
  induction fs with
  | nil => simp [fsWrite, fsRead, h]
  | cons e fs ih =>
      rcases e with ⟨q', d⟩
      by_cases hq : q' = q
      · subst hq; simp [fsWrite, fsRead, h]
      · simp [fsWrite, fsRead, hq, ih]

theorem fsRead_applyWrites_ne {p : Line} {ws : List (Line × List Line)}
    (h : ∀ w ∈ ws, w.1 ≠ p) :
    ∀ fs : FS, fsRead (applyWrites fs ws) p = fsRead fs p := by
  induction ws with
  | nil => intro fs; rfl
  | cons w ws ih =>
      intro fs
      rw [applyWrites, ih (fun x hx => h x (List.mem_cons_of_mem _ hx))]
      exact fsRead_fsWrite_ne (h w (List.mem_cons_self _ _)) fs w.2

theorem fsRead_applyWrites (ws : List (Line × List Line)) (p : Line) :
    ∀ fs : FS, fsRead (applyWrites fs ws) p =
      match lastWrite ws p with
      | some c => some c
      | none => fsRead fs p := by
  induction ws with
  | nil => intro fs; rfl
  | cons w ws ih =>
      intro fs
      rw [applyWrites, ih, lastWrite]
      cases hl : lastWrite ws p with
      | some c => rfl
      | none =>
          by_cases hw : w.1 = p
          · rw [if_pos hw, ← hw]
            exact fsRead_fsWrite_eq fs w.1 w.2
          · rw [if_neg hw]
            exact fsRead_fsWrite_ne hw fs w.2

/-! ### A dedup-length lemma for counting distinct output paths -/

theorem dedup_length_map_of_injective {α β : Type} [DecidableEq α] [DecidableEq β]
    {f : α → β} (hf : Function.Injective f) (l : List α) :
    ((l.map f).dedup).length = l.dedup.length := by
  rw [← List.card_toFinset, ← List.card_toFinset]
  have him : (l.map f).toFinset = l.toFinset.image f := by
    ext b
    simp [List.mem_toFinset, Finset.mem_image]
  rw [him]
  exact Finset.card_image_of_injective _ hf

/-! ### Skipping lines not flagged as atomic coordinate records -/

theorem scanLines_filter (contents : List Line) :
    ∀ st : ScanSt,
      scanLines st contents = scanLines st (contents.filter startsWithATOM) := by
  induction contents with
  | nil => intro st; rfl
  | cons l rest ih =>
      intro st
      by_cases ha : startsWithATOM l
      · rw [List.filter_cons_of_pos ha, scanLines, scanLines]
        cases scanLine st l with
        | error e => rfl
        | ok st' => exact ih st'
      · rw [List.filter_cons_of_neg (by simpa using ha), scanLines,
          scanLine_not_atom ha]
        exact ih st

theorem ne_blank_of_mem_nondefault {contents : List Line} {k : Char}
    (h : k ∈ nondefaultMarkers contents) : k ≠ ' ' := by
  rw [nondefaultMarkers] at h
  have := (List.mem_filter.mp h).2
  simpa using this

/-! ## The claims -/

/-- C1: on a successful run, every output file `split_pdb` produces is, for
some non-blank marker `k`, exactly the blanked `ATOM` lines whose marker is
`k` or blank, kept in original file order. Hence every record of the default
(blank-marker) group appears in it exactly once, in original relative order,
correctly interleaved by original record position with the records of marker
`k`; the sublist conjunct states the default group's one-occurrence-in-order
containment explicitly. -/
theorem split_pdb_output_contents {fn_pdb : Line} {contents : List Line}
    {ws : List (Line × List Line)} (h : split_pdb fn_pdb contents = .ok ws) :
    ∀ w ∈ ws, ∃ k, k ≠ ' ' ∧
      w.2 = ((atomLines contents).filter
        (fun l => marker16 l = some k ∨ marker16 l = some ' ')).map blank16 ∧
      (((atomLines contents).filter
        (fun l => marker16 l = some ' ')).map blank16).Sublist w.2 := by
  intro w hw
  rw [split_pdb_ok_characterization h] at hw
  rcases List.mem_map.mp hw with ⟨k, hkmem, hkw⟩
  refine ⟨k, ne_blank_of_mem_nondefault hkmem, ?_, ?_⟩
  · rw [← hkw]; rfl
  · rw [← hkw]
    refine List.Sublist.map blank16 ?_
    refine List.monotone_filter_right _ ?_
    intro l hl
    simp only [decide_eq_true_eq] at hl ⊢
    exact Or.inr hl

/-- C2 (amended): when the splitter completes without error, the number of
distinct output file paths equals the number of distinct lowercase forms of
the non-blank alternate-location markers among the input's `ATOM` records
(markers differing only in letter case collide onto one path, so the
unamended count of distinct markers overshoots). -/
theorem split_pdb_file_count {fn_pdb : Line} {contents : List Line}
    {ws : List (Line × List Line)} (h : split_pdb fn_pdb contents = .ok ws) :
    (ws.map Prod.fst).dedup.length
      = ((nondefaultMarkers contents).map Char.toLower).dedup.length := by
  rw [split_ok_paths h]
  have hout : (nondefaultMarkers contents).map (outName fn_pdb)
      = ((nondefaultMarkers contents).map Char.toLower).map
          (fun c => fn_pdb.take (fn_pdb.length - 4)
            ++ ['_', c, '.', 'p', 'd', 'b']) := by
    rw [List.map_map]; rfl
  rw [hout]
  refine dedup_length_map_of_injective ?_ _
  intro a b hab
  have := List.append_cancel_left hab
  simpa using this

/-- C3: every line written by `split_pdb` to any output file is a line of the
input flagged as an `ATOM` record, with the alternate-location marker
character at column index 16 replaced by a blank and otherwise unchanged;
in particular the written line carries a blank marker. -/
theorem split_pdb_writes_blanked {fn_pdb : Line} {contents : List Line}
    {ws : List (Line × List Line)} (h : split_pdb fn_pdb contents = .ok ws) :
    ∀ w ∈ ws, ∀ l ∈ w.2, ∃ l0, l0 ∈ contents ∧ startsWithATOM l0 = true ∧
      l = blank16 l0 ∧ marker16 l = some ' ' := by
  intro w hw l hl
  rw [split_pdb_ok_characterization h] at hw
  rcases List.mem_map.mp hw with ⟨k, hkmem, hkw⟩
  rw [← hkw] at hl
  replace hl : l ∈ mergedFor contents k := hl
  rw [mergedFor] at hl
  rcases List.mem_map.mp hl with ⟨l0, hl0, rfl⟩
  have hl0a : l0 ∈ atomLines contents := List.mem_of_mem_filter hl0
  rcases List.mem_filter.mp hl0a with ⟨hmem, hflag⟩
  have hlen : pos < l0.length :=
    good_atomLines (goodInput_of_split_ok h) l0 hl0a
  exact ⟨l0, hmem, hflag, rfl, marker16_blank16 hlen⟩

/-- C4: the splitter is a deterministic function of the input file's
contents, and running it a second time after its own writes have been
applied to the file system reads the unchanged input and produces
byte-identical output files (the very same write list). -/
theorem runSplit_idempotent {fs : FS} {fn_pdb : Line}
    {ws : List (Line × List Line)} (h : runSplit fs fn_pdb = .ok ws) :
    runSplit (applyWrites fs ws) fn_pdb = .ok ws := by
  rw [runSplit] at h ⊢
  cases hr : fsRead fs fn_pdb with
  | none => rw [hr] at h; cases h
  | some contents =>
      rw [hr] at h
      replace h : split_pdb fn_pdb contents = .ok ws := h
      rw [fsRead_applyWrites_ne (split_ok_not_input_path h) fs, hr]
      exact h

/-- C5: when no `ATOM` record of the input carries a non-blank
alternate-location marker (in particular when there are no `ATOM` records at
all), a completed run of `split_pdb` produces no output file. -/
theorem split_pdb_no_marker_no_output {fn_pdb : Line} {contents : List Line}
    {ws : List (Line × List Line)}
    (hall : ∀ l ∈ atomLines contents, marker16 l = none ∨ marker16 l = some ' ')
    (h : split_pdb fn_pdb contents = .ok ws) :
    ws = [] := by
  have hnd : nondefaultMarkers contents = [] := by
    rw [nondefaultMarkers, dedupFirst]
    refine List.filter_eq_nil_iff.mpr ?_
    intro c hc
    have hcm : c ∈ markersOf contents := ((mem_newKeys _ _).mp hc).1
    rcases List.mem_filterMap.mp hcm with ⟨l, hl, hml⟩
    rcases hall l hl with hn | hb
    · rw [hn] at hml; cases hml
    · have hc' : c = ' ' := by
        rw [hb] at hml
        injection hml with h1
        exact h1.symm
      simp [hc']
  rw [split_pdb_ok_characterization h, hnd]
  rfl

/-- C6 (amended): lines not flagged as atomic coordinate records (lines that
do not start with `ATOM`) are silently skipped by `split_pdb`: deleting them
from the input changes neither the outputs nor the raised error, so they
never appear in an output and never cause an error. (The unamended claim is
false: a line that does start with `ATOM` but is shorter than 17 characters
is malformed for the fixed-width layout, yet it raises an uncaught
`IndexError` instead of being skipped.) -/
theorem split_pdb_skips_nonatom (fn_pdb : Line) (contents : List Line) :
    split_pdb fn_pdb contents
      = split_pdb fn_pdb (contents.filter startsWithATOM) := by
  rw [split_pdb, split_pdb, scanLines_filter contents ⟨[], 0⟩]

/-- C7: a completed run of the splitter never mutates its input file: the
input path's contents are identical before and after the run's writes are
applied, and every write goes to a per-marker output path distinct from the
input. -/
theorem runSplit_frame {fs : FS} {fn_pdb : Line}
    {ws : List (Line × List Line)} (h : runSplit fs fn_pdb = .ok ws) :
    fsRead (applyWrites fs ws) fn_pdb = fsRead fs fn_pdb ∧
    ∀ w ∈ ws, ∃ k, k ≠ ' ' ∧ w.1 = outName fn_pdb k := by
  rw [runSplit] at h
  cases hr : fsRead fs fn_pdb with
  | none => rw [hr] at h; cases h
  | some contents =>
      rw [hr] at h
      replace h : split_pdb fn_pdb contents = .ok ws := h
      refine ⟨(fsRead_applyWrites_ne (split_ok_not_input_path h) fs).trans hr, ?_⟩
      intro w hw
      have h1 : w.1 ∈ ws.map Prod.fst := List.mem_map_of_mem _ hw
      rw [split_ok_paths h] at h1
      rcases List.mem_map.mp h1 with ⟨k, hkmem, hk⟩
      exact ⟨k, ne_blank_of_mem_nondefault hkmem, hk.symm⟩

/-- C8: the simulation driver issues exactly one energy minimization and
exactly one integration advance, of exactly 3000 steps; the minimization is
issued before any stepping; the only file-targeted scalar reporter is
`scalars.csv`, configured to report every 10 steps with columns exactly
step, time, potential energy, total energy and temperature; and the only
trajectory reporter is `traj.dcd`, configured every 10 steps. -/
theorem driver_sequence :
    driverCalls.filter isMinimizeCall = [.minimizeEnergy 100] ∧
    driverCalls.filter isStepCall = [.step 3000] ∧
    EngineCall.minimizeEnergy 100 ∈ driverCalls.takeWhile
      (fun c => !isStepCall c) ∧
    driverCalls.filter isFileStateReporter
      = [.addStateDataReporter (.file "scalars.csv".toList) 10
          [.step, .time, .potentialEnergy, .totalEnergy, .temperature]] ∧
    driverCalls.filter isDCDReporter = [.addDCDReporter "traj.dcd".toList 10] := by
  refine ⟨rfl, rfl, ?_, rfl, rfl⟩
  decide

/-- C9 (amended): on an input whose `ATOM` records all carry a marker
position (are at least 17 characters long), none of them a blank marker,
and with at least one `ATOM` record present, `split_pdb` raises an uncaught
`KeyError` when looking up the default group, and writes no output file.
(The unamended claim is false only when some `ATOM` record is shorter than
17 characters: then the earlier `IndexError` fires instead.) -/
theorem split_pdb_missing_default_keyError {fn_pdb : Line}
    {contents : List Line}
    (hlen : ∀ l ∈ atomLines contents, pos < l.length)
    (hnb : ∀ l ∈ atomLines contents, marker16 l ≠ some ' ')
    (hne : atomLines contents ≠ []) :
    split_pdb fn_pdb contents = .error .keyError := by
  have hgood : goodInput contents := fun l hl hf =>
    hlen l (List.mem_filter.mpr ⟨hl, hf⟩)
  have hsp : ' ' ∉ (records contents).map Prod.fst := by
    rw [← markersOf_eq hgood]
    intro hmem
    rcases List.mem_filterMap.mp hmem with ⟨l, hl, hml⟩
    exact hnb l hl hml
  have hd : lookupGroup (buildSt ⟨[], 0⟩ (records contents)).groups ' '
      = none := by
    have hl0 : lookupGroup (buildSt ⟨[], 0⟩ (records contents)).groups ' '
        = if ' ' ∈ (records contents).map Prod.fst
          then some (groupSpecFrom 0 ' ' (records contents)) else none := by
      simpa [lookupGroup] using lookup_buildSt (records contents) ⟨[], 0⟩ ' '
    rw [hl0, if_neg hsp]
  have hkeys : keysOf (buildSt ⟨[], 0⟩ (records contents)).groups
      = newKeys [] ((records contents).map Prod.fst) := by
    simpa [keysOf] using keysOf_buildSt (records contents) ⟨[], 0⟩
  cases hms0 : (records contents).map Prod.fst with
  | nil =>
      exfalso
      have : records contents = [] := List.map_eq_nil_iff.mp hms0
      rw [records] at this
      exact hne (List.map_eq_nil_iff.mp this)
  | cons k0 ktl =>
      have hk0 : k0 ∈ (records contents).map Prod.fst := by
        rw [hms0]; exact List.mem_cons_self _ _
      have hk0ne : k0 ≠ ' ' := fun he => hsp (he ▸ hk0)
      have hk0keys : k0 ∈ keysOf (buildSt ⟨[], 0⟩ (records contents)).groups := by
        rw [hkeys]
        exact (mem_newKeys _ _).mpr ⟨hk0, List.not_mem_nil _⟩
      rcases List.mem_map.mp hk0keys with ⟨p, hp, hpk⟩
      rw [split_pdb, scanLines_eq_buildSt hgood ⟨[], 0⟩]
      exact writeGroups_keyError hd _ ⟨p, hp, by rw [hpk]; exact hk0ne⟩

/-- C10: for a completed run, the sequence of output paths is exactly, for
each distinct non-blank marker in first-occurrence order, the input filename
with its last four characters removed and an underscore, the lowercased
marker and `.pdb` appended; two markers with the same lowercase form are
written to the same path; and reading the file system after the writes
returns, for every path, the content of the last write to it (the later
write replaces the earlier). -/
theorem split_pdb_output_naming {fn_pdb : Line} {contents : List Line}
    {ws : List (Line × List Line)} (h : split_pdb fn_pdb contents = .ok ws) :
    ws.map Prod.fst = (nondefaultMarkers contents).map (outName fn_pdb) ∧
    (∀ k k', Char.toLower k = Char.toLower k' →
      outName fn_pdb k = outName fn_pdb k') ∧
    (∀ (fs : FS) (p : Line), fsRead (applyWrites fs ws) p =
      match lastWrite ws p with
      | some c => some c
      | none => fsRead fs p) := by
  refine ⟨split_ok_paths h, ?_, ?_⟩
  · intro k k' hkk
    rw [outName, outName, hkk]
  · intro fs p
    exact fsRead_applyWrites ws p fs

/-! ## Witnesses and counterexamples at concrete inputs -/

/-- Witness for C1: a two-record input (marker `A`, then blank) produces one
output whose contents are the two blanked records in file order. -/
theorem split_pdb_output_contents_witness :
    ∃ k, k ≠ ' ' ∧
      (("p_a.pdb".toList, [mkAtom ' ' [], mkAtom ' ' []]) : Line × List Line).2
        = ((atomLines [mkAtom 'A' [], mkAtom ' ' []]).filter
            (fun l => marker16 l = some k ∨ marker16 l = some ' ')).map blank16 ∧
      (((atomLines [mkAtom 'A' [], mkAtom ' ' []]).filter
            (fun l => marker16 l = some ' ')).map blank16).Sublist
        (("p_a.pdb".toList, [mkAtom ' ' [], mkAtom ' ' []]) : Line × List Line).2 :=
  split_pdb_output_contents
    (show split_pdb "p.pdb".toList [mkAtom 'A' [], mkAtom ' ' []]
        = .ok [("p_a.pdb".toList, [mkAtom ' ' [], mkAtom ' ' []])] from rfl)
    _ (List.mem_cons_self _ _)

/-- Counterexample for C2 as stated: with markers `A`, `a` and blank, there
are two distinct non-default markers but the two writes collide on the
single path `p_a.pdb`, so only one output file is produced. -/
theorem split_pdb_file_count_counterexample :
    numOutputFiles (split_pdb "p.pdb".toList
        [mkAtom 'A' [], mkAtom 'a' [], mkAtom ' ' []]) = 1 ∧
    (nondefaultMarkers [mkAtom 'A' [], mkAtom 'a' [], mkAtom ' ' []]).length
      = 2 ∧
    numOutputFiles (split_pdb "p.pdb".toList
        [mkAtom 'A' [], mkAtom 'a' [], mkAtom ' ' []])
      ≠ (nondefaultMarkers
          [mkAtom 'A' [], mkAtom 'a' [], mkAtom ' ' []]).length := by
  refine ⟨by rfl, by rfl, by decide⟩

/-- Witness for the amended C2 at the same case-colliding input: one
distinct output path, one distinct lowercased non-default marker. -/
theorem split_pdb_file_count_witness :
    (([(("p_a.pdb".toList : Line), [mkAtom ' ' [], mkAtom ' ' []]),
        (("p_a.pdb".toList : Line), [mkAtom ' ' [], mkAtom ' ' []])].map
          Prod.fst).dedup).length
      = (((nondefaultMarkers
            [mkAtom 'A' [], mkAtom 'a' [], mkAtom ' ' []]).map
              Char.toLower).dedup).length :=
  split_pdb_file_count
    (show split_pdb "p.pdb".toList [mkAtom 'A' [], mkAtom 'a' [], mkAtom ' ' []]
        = .ok [("p_a.pdb".toList, [mkAtom ' ' [], mkAtom ' ' []]),
               ("p_a.pdb".toList, [mkAtom ' ' [], mkAtom ' ' []])] from rfl)

/-- Witness for C3: the line written for marker `B` is the corresponding
input record with the marker column blanked. -/
theorem split_pdb_writes_blanked_witness :
    ∃ l0, l0 ∈ [mkAtom 'B' [], mkAtom ' ' []] ∧ startsWithATOM l0 = true ∧
      mkAtom ' ' [] = blank16 l0 ∧ marker16 (mkAtom ' ' []) = some ' ' :=
  split_pdb_writes_blanked
    (show split_pdb "q.pdb".toList [mkAtom 'B' [], mkAtom ' ' []]
        = .ok [("q_b.pdb".toList, [mkAtom ' ' [], mkAtom ' ' []])] from rfl)
    _ (List.mem_cons_self _ _) (mkAtom ' ' []) (List.mem_cons_self _ _)

/-- Witness for C4: rerunning the splitter after applying its writes to the
file system yields the identical write list. -/
theorem runSplit_idempotent_witness :
    runSplit (applyWrites [("p.pdb".toList, [mkAtom 'A' [], mkAtom ' ' []])]
        [("p_a.pdb".toList, [mkAtom ' ' [], mkAtom ' ' []])]) "p.pdb".toList
      = .ok [("p_a.pdb".toList, [mkAtom ' ' [], mkAtom ' ' []])] :=
  runSplit_idempotent
    (show runSplit [("p.pdb".toList, [mkAtom 'A' [], mkAtom ' ' []])]
        "p.pdb".toList
        = .ok [("p_a.pdb".toList, [mkAtom ' ' [], mkAtom ' ' []])] from rfl)

/-- Witness for C5: an input whose only `ATOM` record has a blank marker
produces no output file. -/
theorem split_pdb_no_marker_no_output_witness :
    ([] : List (Line × List Line)) = [] :=
  split_pdb_no_marker_no_output (by decide)
    (show split_pdb "p.pdb".toList [mkAtom ' ' [], ['h', 'i']] = .ok [] from rfl)

/-- Counterexample for C6 as stated: the malformed line `ATOM` (shorter than
the fixed-width layout) is flagged as an atomic coordinate record, is read,
and raises an uncaught `IndexError` instead of being silently skipped. -/
theorem split_pdb_malformed_counterexample :
    startsWithATOM ['A', 'T', 'O', 'M'] = true ∧
    split_pdb "p.pdb".toList [['A', 'T', 'O', 'M']] = .error .indexError :=
  ⟨rfl, rfl⟩

/-- Witness for C7: the input file reads the same before and after the run's
writes, which all go to the per-marker output path. -/
theorem runSplit_frame_witness :
    fsRead (applyWrites [("p.pdb".toList, [mkAtom 'C' [], mkAtom ' ' []])]
        [("p_c.pdb".toList, [mkAtom ' ' [], mkAtom ' ' []])]) "p.pdb".toList
      = fsRead [("p.pdb".toList, [mkAtom 'C' [], mkAtom ' ' []])]
          "p.pdb".toList ∧
    ∀ w ∈ [(("p_c.pdb".toList : Line), [mkAtom ' ' [], mkAtom ' ' []])],
      ∃ k, k ≠ ' ' ∧ w.1 = outName "p.pdb".toList k :=
  runSplit_frame
    (show runSplit [("p.pdb".toList, [mkAtom 'C' [], mkAtom ' ' []])]
        "p.pdb".toList
        = .ok [("p_c.pdb".toList, [mkAtom ' ' [], mkAtom ' ' []])] from rfl)

/-- Counterexample for C9 as stated: an input with a non-blank-marker `ATOM`
record, no blank-marker record, and one `ATOM` record too short to carry a
marker raises `IndexError`, not the claimed `KeyError`. -/
theorem split_pdb_keyError_counterexample :
    (∀ l ∈ atomLines [mkAtom 'A' [], ['A', 'T', 'O', 'M']],
      marker16 l ≠ some ' ') ∧
    (∃ l ∈ atomLines [mkAtom 'A' [], ['A', 'T', 'O', 'M']],
      marker16 l = some 'A') ∧
    split_pdb "p.pdb".toList [mkAtom 'A' [], ['A', 'T', 'O', 'M']]
      = .error .indexError ∧
    split_pdb "p.pdb".toList [mkAtom 'A' [], ['A', 'T', 'O', 'M']]
      ≠ .error .keyError := by
  refine ⟨by decide, by decide, rfl, by decide⟩

/-- Witness for the amended C9: a single full-width `ATOM` record with
marker `D` and no blank-marker record raises `KeyError`. -/
theorem split_pdb_missing_default_keyError_witness :
    split_pdb "m.pdb".toList [mkAtom 'D' []] = .error .keyError :=
  split_pdb_missing_default_keyError (by decide) (by decide) (by decide)

/-- Witness for C10 at a one-marker input: the output path is the input name
with the extension stripped and the lowercased marker appended, and reads
after the writes return the last write. -/
theorem split_pdb_output_naming_witness :
    ([(("p_e.pdb".toList : Line), [mkAtom ' ' [], mkAtom ' ' []])].map Prod.fst
        = (nondefaultMarkers [mkAtom 'E' [], mkAtom ' ' []]).map
            (outName "p.pdb".toList)) ∧
    (∀ k k', Char.toLower k = Char.toLower k' →
      outName "p.pdb".toList k = outName "p.pdb".toList k') ∧
    (∀ (fs : FS) (p : Line),
      fsRead (applyWrites fs
          [(("p_e.pdb".toList : Line), [mkAtom ' ' [], mkAtom ' ' []])]) p =
        match lastWrite
            [(("p_e.pdb".toList : Line), [mkAtom ' ' [], mkAtom ' ' []])] p with
        | some c => some c
        | none => fsRead fs p) :=
  split_pdb_output_naming
    (show split_pdb "p.pdb".toList [mkAtom 'E' [], mkAtom ' ' []]
        = .ok [("p_e.pdb".toList, [mkAtom ' ' [], mkAtom ' ' []])] from rfl)

end Chem563
